import Mathlib

/-!
Shallow embedding of the old-keys-reminder-cleanup lambda
(`main.go`: `HandleLabdaEvent`, `getDefaultedUsers`, `listAllUsers`,
`getUserEmailTag`, `listAllAccessKeys`, `isKeyOld`, `deleteKeys`, `sendEmail`).

Modelling conventions:
* Go time instants are `Int` nanoseconds (Go's `time.Time` granularity);
  `t.Add(d).Before(now)` becomes `t + d < now` (strict, as `Before` is).
* AWS SDK pointer fields (`*string`, `*time.Time`) become `Option`;
  a dereference of a `none` field is the Go nil-pointer panic, modelled as
  `Fault.nilPanic`. A Go API call returning `err != nil` is `Fault.apiError`.
* Each paginated AWS call is driven by the environment `Env`, which lists the
  successive responses the server gives for that request; a response carries
  its items and whether a continuation `Marker` is present.
* The externally visible effects (SES `SendEmail` and IAM `DeleteAccessKey`
  calls) are collected as a trace of `Action`s; the outcome of each
  `SendEmail` call comes from the environment function `outcome` and is
  recorded in the trace (the Go code discards it).
-/

namespace KeyAudit

/-- Decidable equality of `Except` results, so that runs of the embedding
on concrete inputs can be checked by `decide`. -/
instance instDecEqExcept {ε α : Type} [DecidableEq ε] [DecidableEq α] : DecidableEq (Except ε α)
  | .error e, .error f =>
    if h : e = f then isTrue (by rw [h]) else isFalse (fun hc => h (Except.error.inj hc))
  | .error _, .ok _ => isFalse (fun hc => Except.noConfusion hc)
  | .ok _, .error _ => isFalse (fun hc => Except.noConfusion hc)
  | .ok a, .ok b =>
    if h : a = b then isTrue (by rw [h]) else isFalse (fun hc => h (Except.ok.inj hc))

/-- Go `time.Hour` in nanoseconds. -/
def hourNs : Int := 3600 * 1000000000

/-- 24 hours in nanoseconds: the duration `N * 24 * time.Hour` used by
`isKeyOld` is `N * dayNs`. -/
def dayNs : Int := 24 * hourNs

/-- `iamTypes.User`: only the `UserName *string` field is used. -/
structure User where
  UserName : Option String
  deriving DecidableEq

/-- `iamTypes.Tag`: `Key *string`, `Value *string`. -/
structure Tag where
  Key : Option String
  Value : Option String
  deriving DecidableEq

/-- `iamTypes.AccessKeyMetadata`: `AccessKeyId *string`,
`CreateDate *time.Time`. -/
structure AccessKeyMetadata where
  AccessKeyId : Option String
  CreateDate : Option Int
  deriving DecidableEq

/-- The `defaultedUser` record of `main.go` (lines 192-197). -/
structure defaultedUser where
  UserName : String
  Email : String
  Key : AccessKeyMetadata
  OlderThan : String
  deriving DecidableEq

/-- Abnormal outcomes of the embedded code: `apiError` is a Go
`err != nil` return from an AWS call; `nilPanic` is a nil-pointer
dereference panic. -/
inductive Fault where
  | apiError
  | nilPanic
  deriving DecidableEq

/-- One response to a paginated listing call: either an error, or a page of
items together with whether a continuation `Marker` is present (`true` iff
`result.Marker != nil`). -/
abbrev PageResp (α : Type) := Except Unit (List α × Bool)

/-- The external world: the successive responses the AWS APIs give to
`ListUsers`, and per user to `ListUserTags` and `ListAccessKeys`. -/
structure Env where
  userResps : List (PageResp User)
  tagResps : User → List (PageResp Tag)
  keyResps : User → List (PageResp AccessKeyMetadata)

/-- The pagination loop shared verbatim by `listAllUsers` (lines 282-297) and
`listAllAccessKeys` (lines 323-340): call, on error return it, append the
page's items, stop when `result.Marker == nil`, else set the marker and loop. -/
def listAllPages {α : Type} : List (PageResp α) → Except Fault (List α)
  | [] => .ok []
  | .error _ :: _ => .error .apiError
  | .ok (items, more) :: rest =>
    if more then
      match listAllPages rest with
      | .error f => .error f
      | .ok tail => .ok (items ++ tail)
    else .ok items

/-- `listAllUsers` (lines 282-297). -/
def listAllUsers (env : Env) : Except Fault (List User) :=
  listAllPages env.userResps

/-- `listAllAccessKeys` (lines 323-340). -/
def listAllAccessKeys (env : Env) (user : User) : Except Fault (List AccessKeyMetadata) :=
  listAllPages (env.keyResps user)

/-- The inner tag scan of `getUserEmailTag` (lines 309-313):
`if *tag.Key == "email" { return *tag.Value, nil }`.  `*tag.Key` is
dereferenced for every tag, `*tag.Value` only on a key match. -/
def scanTags : List Tag → Except Fault (Option String)
  | [] => .ok none
  | t :: rest =>
    match t.Key with
    | none => .error .nilPanic
    | some k =>
      if k = "email" then
        match t.Value with
        | none => .error .nilPanic
        | some v => .ok (some v)
      else scanTags rest

/-- The page loop of `getUserEmailTag` (lines 304-318), over the tag
responses for one user: scan each page, follow the marker, return `""` when
pages are exhausted without a match. -/
def getUserEmailTagGo : List (PageResp Tag) → Except Fault String
  | [] => .ok ""
  | .error _ :: _ => .error .apiError
  | .ok (tags, more) :: rest =>
    match scanTags tags with
    | .error f => .error f
    | .ok (some v) => .ok v
    | .ok none => if more then getUserEmailTagGo rest else .ok ""

/-- `getUserEmailTag` (lines 300-320). -/
def getUserEmailTag (env : Env) (user : User) : Except Fault String :=
  getUserEmailTagGo (env.tagResps user)

/-- `isKeyOld` (lines 343-353).  `olderThan` is Go's variadic `...int`
parameter (a possibly empty list of day counts; only the head is read).
`key.CreateDate.Add(N*24*time.Hour).Before(time.Now())` is
`cd + N * dayNs < now`; a nil `CreateDate` panics in every branch that is
reached. -/
def isKeyOld (now : Int) (key : AccessKeyMetadata) (olderThan : List Int) : Except Fault (Bool × String) :=
  match key.CreateDate with
  | none => .error .nilPanic
  | some cd =>
    match olderThan with
    | t :: _ =>
      if cd + t * dayNs < now then .ok (true, toString t)
      else if cd + 57 * dayNs < now then .ok (true, "57")
      else if cd + 50 * dayNs < now then .ok (true, "50")
      else .ok (false, "")
    | [] =>
      if cd + 57 * dayNs < now then .ok (true, "57")
      else if cd + 50 * dayNs < now then .ok (true, "50")
      else .ok (false, "")

/-- The per-key loop of `getDefaultedUsers` (lines 265-276): classify each
key with `isKeyOld(key)`; an old key dereferences `*key.AccessKeyId` (the
log line) and `*user.UserName` and appends a `defaultedUser` record. -/
def processKeys (now : Int) (user : User) (email : String) : List AccessKeyMetadata → Except Fault (List defaultedUser)
  | [] => .ok []
  | key :: rest =>
    match isKeyOld now key [] with
    | .error f => .error f
    | .ok (old, days) =>
      if old then
        match key.AccessKeyId, user.UserName with
        | some _, some uname =>
          match processKeys now user email rest with
          | .error f => .error f
          | .ok ds => .ok ({ UserName := uname, Email := email, Key := key, OlderThan := days } :: ds)
        | _, _ => .error .nilPanic
      else processKeys now user email rest

/-- The per-user loop of `getDefaultedUsers` (lines 251-277): look up the
email tag (propagating its error), skip the user when it is `""`, otherwise
list the user's access keys (propagating the error) and run the key loop. -/
def processUsers (env : Env) (now : Int) : List User → Except Fault (List defaultedUser)
  | [] => .ok []
  | user :: rest =>
    match getUserEmailTag env user with
    | .error f => .error f
    | .ok email =>
      if email = "" then processUsers env now rest
      else
        match listAllAccessKeys env user with
        | .error f => .error f
        | .ok keys =>
          match processKeys now user email keys with
          | .error f => .error f
          | .ok ds =>
            match processUsers env now rest with
            | .error f => .error f
            | .ok rest2 => .ok (ds ++ rest2)

/-- `getDefaultedUsers` (lines 244-279). -/
def getDefaultedUsers (env : Env) (now : Int) : Except Fault (List defaultedUser) :=
  match listAllUsers env with
  | .error f => .error f
  | .ok users => processUsers env now users

/-- An externally visible effect of the run: an SES `SendEmail` call (with
the outcome the SES API reported, which the Go code discards) or an IAM
`DeleteAccessKey` call. -/
inductive Action where
  | sendEmail (toAddr fromAddr days : String) (ok : Bool)
  | deleteKey (accessKeyId userName : String)
  deriving DecidableEq

/-- `true` exactly on `deleteKey` actions. -/
def Action.isDelete : Action → Bool
  | .deleteKey _ _ => true
  | _ => false

/-- `true` exactly on `sendEmail` actions. -/
def Action.isSend : Action → Bool
  | .sendEmail _ _ _ _ => true
  | _ => false

/-- The process configuration read from the environment in
`HandleLabdaEvent` (lines 216-219): `EMAIL_FROM_ADDRESS` and `DRY_RUN`. -/
structure Config where
  fromAddress : String
  dryRun : String
  deriving DecidableEq

/-- The body of the per-notice loop of `HandleLabdaEvent` (lines 227-236):
send the email (return value discarded; only the trace records the SES
outcome `outcome u`), re-check `isKeyOld(user.Key, 100)`, and when it says
old and `dryRun == "--dry-run"`, issue `deleteKeys(*user.Key.AccessKeyId,
user.UserName, ...)`. -/
def processNotice (cfg : Config) (now : Int) (outcome : defaultedUser → Bool) (u : defaultedUser) : Except Fault (List Action) :=
  let send := Action.sendEmail u.Email cfg.fromAddress u.OlderThan (outcome u)
  match isKeyOld now u.Key [100] with
  | .error f => .error f
  | .ok (isOld, _) =>
    if isOld then
      if cfg.dryRun = "--dry-run" then
        match u.Key.AccessKeyId with
        | none => .error .nilPanic
        | some kid => .ok [send, .deleteKey kid u.UserName]
      else .ok [send]
    else .ok [send]

/-- The per-notice loop of `HandleLabdaEvent` (lines 227-236), collecting
the trace of SES/IAM calls in order. -/
def handleNotices (cfg : Config) (now : Int) (outcome : defaultedUser → Bool) : List defaultedUser → Except Fault (List Action)
  | [] => .ok []
  | u :: rest =>
    match processNotice cfg now outcome u with
    | .error f => .error f
    | .ok acts =>
      match handleNotices cfg now outcome rest with
      | .error f => .error f
      | .ok acts2 => .ok (acts ++ acts2)

/-- `HandleLabdaEvent` (lines 203-240).  `configLoad` is the result of
`config.LoadDefaultConfig`; on its failure the handler logs and returns
`nil`.  On a `getDefaultedUsers` error the handler logs and returns `nil`.
The result is the action trace paired with the Go `error` return value
(`none` = `nil`); a nil-pointer panic aborts the whole run instead of
returning. -/
def HandleLabdaEvent (configLoad : Except Unit Config) (env : Env) (now : Int) (outcome : defaultedUser → Bool) : Except Fault (List Action × Option Unit) :=
  match configLoad with
  | .error _ => .ok ([], none)
  | .ok cfg =>
    match getDefaultedUsers env now with
    | .error .apiError => .ok ([], none)
    | .error .nilPanic => .error .nilPanic
    | .ok notices =>
      match handleNotices cfg now outcome notices with
      | .error f => .error f
      | .ok acts => .ok (acts, none)

/-! ### Spec-side definitions (for the refinement claim about the notice
list) and well-formedness predicates. -/

/-- Spec side: the classification chain in the words of the spec, for the
production path with no override threshold: age = now − creation; old with
label "57" iff the age exceeds 57 days, else old with label "50" iff the
age exceeds 50 days, else not old. -/
def specClassify (now cd : Int) : Option String :=
  if now - cd > 57 * dayNs then some "57"
  else if now - cd > 50 * dayNs then some "50"
  else none

/-- Spec side: the notice record one credential contributes — present iff
the credential is classified old, carrying the owning principal's name, the
email tag value, the credential metadata and the threshold label. -/
def specNoticeOfKey (now : Int) (u : User) (email : String) (k : AccessKeyMetadata) : Option defaultedUser :=
  match k.CreateDate, k.AccessKeyId, u.UserName with
  | some cd, some _, some uname =>
    (specClassify now cd).map fun lbl =>
      { UserName := uname, Email := email, Key := k, OlderThan := lbl }
  | _, _, _ => none

/-- Spec side: the notices one principal contributes — none when its email
tag value is absent or empty, otherwise one record per old credential in
credential enumeration order. -/
def specNoticesForUser (env : Env) (now : Int) (u : User) : List defaultedUser :=
  match getUserEmailTag env u, listAllAccessKeys env u with
  | .ok email, .ok keys =>
    if email = "" then [] else keys.filterMap (specNoticeOfKey now u email)
  | _, _ => []

/-- Spec side: the whole notice list — principals in enumeration order,
within each principal its credentials in enumeration order. -/
def specNotices (env : Env) (now : Int) : List defaultedUser :=
  match listAllUsers env with
  | .ok users => (users.map (specNoticesForUser env now)).flatten
  | .error _ => []

/-- A well-formed page sequence of N pages: the continuation marker is
present on every page but the last. -/
def encodePages {α : Type} : List (List α) → List (PageResp α)
  | [] => []
  | [p] => [.ok (p, false)]
  | p :: q :: rest => .ok (p, true) :: encodePages (q :: rest)

/-- Every tag response is a successful page whose tags all have a key that
is populated and differs from "email". -/
def noEmailTagResps (resps : List (PageResp Tag)) : Prop :=
  ∀ r ∈ resps, ∃ tags more, r = .ok (tags, more) ∧
    ∀ t ∈ tags, ∃ k, t.Key = some k ∧ k ≠ "email"

/-- Tag pages have every `Key` populated, and the `Value` populated on
every tag whose key is "email". -/
def tagsWF (resps : List (PageResp Tag)) : Prop :=
  ∀ r ∈ resps, ∀ tags more, r = .ok (tags, more) →
    ∀ t ∈ tags, t.Key.isSome ∧ (t.Key = some "email" → t.Value.isSome)

/-- Access-key pages have `CreateDate` and `AccessKeyId` populated on every
record. -/
def keysWF (resps : List (PageResp AccessKeyMetadata)) : Prop :=
  ∀ r ∈ resps, ∀ ks more, r = .ok (ks, more) →
    ∀ k ∈ ks, k.CreateDate.isSome ∧ k.AccessKeyId.isSome

/-- The precondition of the workflow: every record returned by the listing
calls has its pointer fields populated (user names; tag keys, and tag values
on email tags; access-key ids and creation dates). -/
def envWF (env : Env) : Prop :=
  ∀ users, listAllUsers env = .ok users → ∀ u ∈ users,
    u.UserName.isSome ∧ tagsWF (env.tagResps u) ∧ keysWF (env.keyResps u)

/-! ### Concrete environments used as witnesses. -/

/-- One user "alice" with tag email="a@x.com" and one access key created at
time 0. -/
def envAlice : Env where
  userResps := [.ok ([{ UserName := some "alice" }], false)]
  tagResps := fun _ => [.ok ([{ Key := some "email", Value := some "a@x.com" }], false)]
  keyResps := fun _ => [.ok ([{ AccessKeyId := some "AKIA1", CreateDate := some 0 }], false)]

/-- One user "bob" with no email tag and one 200-day-old access key. -/
def envBob : Env where
  userResps := [.ok ([{ UserName := some "bob" }], false)]
  tagResps := fun _ => [.ok ([{ Key := some "name", Value := some "Bob" }], false)]
  keyResps := fun _ => [.ok ([{ AccessKeyId := some "AKIA2", CreateDate := some 0 }], false)]

/-- An environment whose very first `ListUsers` call fails. -/
def envFail : Env where
  userResps := [.error ()]
  tagResps := fun _ => []
  keyResps := fun _ => []

/-! ### Theorems -/

/-- **C3** — For every credential and current time, `isKeyOld` evaluates a
first-match-wins chain: with an override threshold `t` supplied, old with
label `t` iff age = now − creation exceeds `t` days; otherwise old with
label "57" iff the age exceeds 57 days; otherwise old with label "50" iff
the age exceeds 50 days; otherwise not old with empty label.  Without an
override only the 57/50 chain applies. -/
theorem isKeyOld_first_match_chain (now cd t : Int) (kid : Option String) :
    (isKeyOld now { AccessKeyId := kid, CreateDate := some cd } [t] =
      .ok (if now - cd > t * dayNs then (true, toString t)
        else if now - cd > 57 * dayNs then (true, "57")
        else if now - cd > 50 * dayNs then (true, "50")
        else (false, ""))) ∧
    (isKeyOld now { AccessKeyId := kid, CreateDate := some cd } [] =
      .ok (if now - cd > 57 * dayNs then (true, "57")
        else if now - cd > 50 * dayNs then (true, "50")
        else (false, ""))) := by
  have h1 : (cd + t * dayNs < now) ↔ (now - cd > t * dayNs) := by omega
  have h2 : (cd + 57 * dayNs < now) ↔ (now - cd > 57 * dayNs) := by omega
  have h3 : (cd + 50 * dayNs < now) ↔ (now - cd > 50 * dayNs) := by omega
  constructor
  · simp only [isKeyOld, h1, h2, h3]
    split_ifs <;> rfl
  · simp only [isKeyOld, h2, h3]
    split_ifs <;> rfl

/-- **C1** — counter-evidence: for a notice whose credential is 60 days old
(created at 0, now = 60 days) and `DRY_RUN = "--dry-run"`, the per-notice
loop issues the deletion call even though the age does not exceed 100 days:
`isKeyOld(key, 100)` falls through its else-branches to the 57-day check. -/
theorem deletion_fires_below_100_days :
    processNotice { fromAddress := "f@x.com", dryRun := "--dry-run" } (60 * dayNs)
        (fun _ => true)
        { UserName := "alice", Email := "a@x.com",
          Key := { AccessKeyId := some "AKIA1", CreateDate := some 0 }, OlderThan := "57" }
      = .ok [.sendEmail "a@x.com" "f@x.com" "57" true, .deleteKey "AKIA1" "alice"] := by
  decide

/-- **C2** — counter-evidence: principal "alice" with tag email="a@x.com"
and one credential created 60 days before now does yield one notice with
label "57" and one notification to that email, but with
`DRY_RUN = "--dry-run"` the run also issues the deletion call, although the
age (60 days) does not exceed 100 days — against the claim that no deletion
occurs regardless of the flag. -/
theorem alice_60_day_key_deleted_under_sentinel :
    HandleLabdaEvent (.ok { fromAddress := "f@x.com", dryRun := "--dry-run" })
        envAlice (60 * dayNs) (fun _ => true)
      = .ok ([.sendEmail "a@x.com" "f@x.com" "57" true, .deleteKey "AKIA1" "alice"], none) := by
  decide

/-- **C4** — The lambda handler returns a nil error to its trigger on every
execution path on which it returns at all: whenever `HandleLabdaEvent`
produces a result (configuration-load failure and enumeration failure
included), the returned Go error value is `nil`. -/
theorem handler_always_returns_nil (configLoad : Except Unit Config) (env : Env)
    (now : Int) (outcome : defaultedUser → Bool) (res : List Action × Option Unit)
    (h : HandleLabdaEvent configLoad env now outcome = .ok res) : res.2 = none := by
  unfold HandleLabdaEvent at h
  split at h
  all_goals try split at h
  all_goals try split at h
  all_goals
    first
      | exact Except.noConfusion h
      | exact (congrArg Prod.snd (Except.ok.inj h)).symm

/-- Witness for C4 at a concrete input: configuration load fails. -/
theorem handler_always_returns_nil_witness :
    (([], none) : List Action × Option Unit).2 = none :=
  handler_always_returns_nil (.error ()) envAlice 0 (fun _ => true) ([], none) (by decide)

/-- The pagination loop on a well-formed sequence of pages (marker on all
but the last page) returns the concatenation of the pages. -/
theorem listAllPages_encodePages {α : Type} :
    ∀ pages : List (List α), listAllPages (encodePages pages) = .ok pages.flatten
  | [] => rfl
  | [p] => by simp [encodePages, listAllPages]
  | p :: q :: rest => by
    have ih := listAllPages_encodePages (q :: rest)
    simp [encodePages, listAllPages, ih]

/-- **C6** — For every paginated listing (users, access keys) whose page
sequence returns N pages with the marker present on all but the last, the
aggregation loop returns exactly the concatenation of the pages' items, in
page order. -/
theorem pagination_yields_concatenation (upages : List (List User))
    (kpages : List (List AccessKeyMetadata)) (ufn : List (PageResp User))
    (tfn : User → List (PageResp Tag)) (kfn : User → List (PageResp AccessKeyMetadata))
    (u : User) :
    listAllUsers (Env.mk (encodePages upages) tfn kfn) = .ok upages.flatten ∧
    listAllAccessKeys (Env.mk ufn tfn (fun _ => encodePages kpages)) u
        = .ok kpages.flatten :=
  ⟨listAllPages_encodePages upages, listAllPages_encodePages kpages⟩

/-- Scanning a tag list none of whose (populated) keys is "email" finds
nothing. -/
theorem scanTags_of_noEmail (tags : List Tag)
    (h : ∀ t ∈ tags, ∃ k, t.Key = some k ∧ k ≠ "email") : scanTags tags = .ok none := by
  induction tags with
  | nil => rfl
  | cons t rest ih =>
    obtain ⟨k, hk, hne⟩ := h t (by simp)
    simp only [scanTags, hk, if_neg hne]
    exact ih fun t2 ht2 => h t2 (by simp [ht2])

/-- The tag-page loop returns "" when no page contains an email tag. -/
theorem getUserEmailTagGo_of_noEmail :
    ∀ resps, noEmailTagResps resps → getUserEmailTagGo resps = .ok ""
  | [], _ => rfl
  | r :: rest, h => by
    obtain ⟨tags, more, rfl, htags⟩ := h r (by simp)
    have hscan := scanTags_of_noEmail tags htags
    have ih := getUserEmailTagGo_of_noEmail rest fun r2 hr2 => h r2 (by simp [hr2])
    cases more <;> simp [getUserEmailTagGo, hscan, ih]

/-- **C5** — A principal whose tag set contains no tag with key exactly
"email" yields the empty email lookup result, and any principal whose email
lookup result is "" (no email tag, or an email tag with empty value) is
skipped by the per-user loop: it contributes nothing to the notice list, so
none of its credentials can trigger notification or deletion. -/
theorem no_email_tag_no_notice (env : Env) (now : Int) (u : User) (rest : List User) :
    (noEmailTagResps (env.tagResps u) → getUserEmailTag env u = .ok "") ∧
    (getUserEmailTag env u = .ok "" →
      processUsers env now (u :: rest) = processUsers env now rest) := by
  constructor
  · intro h
    exact getUserEmailTagGo_of_noEmail (env.tagResps u) h
  · intro h
    simp only [processUsers]
    rw [h]
    simp

/-- Witness for C5 at a concrete input: principal "bob" carries only a
`name` tag, so the email lookup yields "" and the per-user loop skips him. -/
theorem no_email_tag_no_notice_witness :
    getUserEmailTag envBob { UserName := some "bob" } = .ok "" ∧
    processUsers envBob 0 [{ UserName := some "bob" }] = processUsers envBob 0 [] := by
  have h := no_email_tag_no_notice envBob 0 { UserName := some "bob" } []
  have h1 : noEmailTagResps (envBob.tagResps { UserName := some "bob" }) := by
    intro r hr
    simp only [envBob, List.mem_singleton] at hr
    subst hr
    refine ⟨_, _, rfl, ?_⟩
    intro t ht
    simp only [List.mem_singleton] at ht
    subst ht
    exact ⟨"name", rfl, by decide⟩
  exact ⟨h.1 h1, h.2 (h.1 h1)⟩

/-- **C7** — A failed users, tags, or access-keys listing call makes the
candidate enumeration return the error (the notice list side of the Go pair
is nil; the `Except` embedding carries no partial list), and on an
enumeration error the handler performs no notification and no deletion:
its action trace is empty. -/
theorem enumeration_failure_aborts (env : Env) (now : Int) (u : User) (rest : List User)
    (email : String) (cfg : Config) (outcome : defaultedUser → Bool) (f : Fault) :
    (listAllUsers env = .error f → getDefaultedUsers env now = .error f) ∧
    (getUserEmailTag env u = .error f → processUsers env now (u :: rest) = .error f) ∧
    (getUserEmailTag env u = .ok email → email ≠ "" → listAllAccessKeys env u = .error f →
      processUsers env now (u :: rest) = .error f) ∧
    (getDefaultedUsers env now = .error .apiError →
      HandleLabdaEvent (.ok cfg) env now outcome = .ok ([], none)) := by
  refine ⟨?_, ?_, ?_, ?_⟩
  · intro h
    simp only [getDefaultedUsers]
    rw [h]
  · intro h
    simp only [processUsers]
    rw [h]
  · intro h1 h2 h3
    simp only [processUsers]
    rw [h1]
    simp only [if_neg h2]
    rw [h3]
  · intro h
    simp only [HandleLabdaEvent]
    rw [h]

/-- Witness for C7 at a concrete input: the first `ListUsers` call fails. -/
theorem enumeration_failure_aborts_witness :
    getDefaultedUsers envFail 0 = .error .apiError ∧
    HandleLabdaEvent (.ok { fromAddress := "f", dryRun := "" }) envFail 0 (fun _ => true)
      = .ok ([], none) := by
  have h := enumeration_failure_aborts envFail 0 { UserName := some "x" } [] "e"
    { fromAddress := "f", dryRun := "" } (fun _ => true) .apiError
  have h1 : listAllUsers envFail = .error .apiError := by decide
  exact ⟨h.1 h1, h.2.2.2 (h.1 h1)⟩

/-- `Except.map` reaches an error exactly when its argument is that
error. -/
theorem except_map_eq_error {ε α β : Type} (g : α → β) (x : Except ε α) (e : ε) :
    x.map g = .error e ↔ x = .error e := by
  cases x <;> simp [Except.map]

/-- The per-notice step of the handler, characterised independently of the
SES send outcome: it either fails with an error that does not depend on the
outcome, or returns the send action (whose recorded outcome is the only
dependence) followed by a fixed, outcome-independent list of deletion
actions. -/
theorem processNotice_cases (cfg : Config) (now : Int) (u : defaultedUser) :
    (∃ e, ∀ g : defaultedUser → Bool, processNotice cfg now g u = .error e) ∨
    (∃ del, (∀ a ∈ del, Action.isDelete a = true ∧ Action.isSend a = false) ∧
      ∀ g : defaultedUser → Bool, processNotice cfg now g u =
        .ok (Action.sendEmail u.Email cfg.fromAddress u.OlderThan (g u) :: del)) := by
  unfold processNotice
  cases hko : isKeyOld now u.Key [100] with
  | error e => exact Or.inl ⟨e, fun g => rfl⟩
  | ok p =>
    obtain ⟨old, lbl⟩ := p
    cases old with
    | false => exact Or.inr ⟨[], by simp, fun g => by simp⟩
    | true =>
      by_cases hd : cfg.dryRun = "--dry-run"
      · cases hak : u.Key.AccessKeyId with
        | none =>
          refine Or.inl ⟨.nilPanic, fun g => ?_⟩
          simp [hd]
        | some kid =>
          refine Or.inr ⟨[.deleteKey kid u.UserName],
            by simp [Action.isDelete, Action.isSend], fun g => ?_⟩
          simp [hd]
      · refine Or.inr ⟨[], by simp, fun g => ?_⟩
        simp [hd]

/-- **C8** — The SES send outcome has no influence on the rest of the run:
for any two outcome assignments the deletion actions in the trace are
identical (a failed send neither stops that notice's deletion-eligibility
check nor its deletion), and as long as the loop completes, every notice —
each a "next notice" of its predecessor — contributes exactly one
notification attempt. -/
theorem send_outcome_irrelevant (cfg : Config) (now : Int)
    (f g : defaultedUser → Bool) (ns : List defaultedUser) :
    (handleNotices cfg now f ns).map (List.filter Action.isDelete) =
      (handleNotices cfg now g ns).map (List.filter Action.isDelete) ∧
    (∀ acts, handleNotices cfg now f ns = .ok acts →
      (acts.filter Action.isSend).length = ns.length) := by
  induction ns with
  | nil =>
    refine ⟨rfl, fun acts h => ?_⟩
    cases Except.ok.inj h
    rfl
  | cons u rest ih =>
    rcases processNotice_cases cfg now u with ⟨e, he⟩ | ⟨del, hdel, hok⟩
    · refine ⟨?_, fun acts h => ?_⟩
      · simp [handleNotices, he f, he g]
      · rw [handleNotices, he f] at h
        exact Except.noConfusion h
    · constructor
      · simp only [handleNotices, hok f, hok g]
        cases hr : handleNotices cfg now f rest with
        | error e =>
          have hgr : handleNotices cfg now g rest = .error e := by
            have h1 := ih.1
            rw [hr] at h1
            exact (except_map_eq_error _ _ _).mp h1.symm
          rw [hgr]
        | ok acts2 =>
          have h1 := ih.1
          rw [hr] at h1
          cases hgr : handleNotices cfg now g rest with
          | error e =>
            rw [hgr] at h1
            exact absurd h1 (by simp [Except.map])
          | ok acts3 =>
            rw [hgr] at h1
            simp only [Except.map] at h1 ⊢
            have h2 : acts2.filter Action.isDelete = acts3.filter Action.isDelete :=
              Except.ok.inj h1
            simp only [List.filter_append, List.filter_cons, h2]
            have hsend : Action.isDelete (Action.sendEmail u.Email cfg.fromAddress u.OlderThan (f u)) = Action.isDelete (Action.sendEmail u.Email cfg.fromAddress u.OlderThan (g u)) := rfl
            simp [Action.isDelete]
      · intro acts h
        rw [handleNotices, hok f] at h
        cases hr : handleNotices cfg now f rest with
        | error e =>
          rw [hr] at h
          exact Except.noConfusion h
        | ok acts2 =>
          rw [hr] at h
          cases Except.ok.inj h
          have hdelfilter : del.filter Action.isSend = [] := by
            rw [List.filter_eq_nil_iff]
            intro a ha
            simp [(hdel a ha).2]
          simp only [List.filter_cons, List.filter_append, Action.isSend, hdelfilter]
          simp [ih.2 acts2 hr, List.length_cons]

/-- Witness for C8 at a concrete input: one notice for a 60-day-old key
with deletion disabled; with the send outcome forced to `true` on one side
and `false` on the other, the trace still contains exactly one send. -/
theorem send_outcome_irrelevant_witness :
    ((([Action.sendEmail "a@x.com" "f" "57" true] : List Action).filter Action.isSend).length) = 1 :=
  (send_outcome_irrelevant { fromAddress := "f", dryRun := "" } (60 * dayNs)
    (fun _ => true) (fun _ => false)
    [{ UserName := "alice", Email := "a@x.com",
       Key := { AccessKeyId := some "AKIA1", CreateDate := some 0 }, OlderThan := "57" }]).2
    [Action.sendEmail "a@x.com" "f" "57" true] (by decide)

/-- `isKeyOld` without an override, rephrased through the spec-side
classifier. -/
theorem isKeyOld_nil_specClassify (now : Int) (key : AccessKeyMetadata) (cd : Int)
    (h : key.CreateDate = some cd) :
    isKeyOld now key [] = .ok (match specClassify now cd with
      | some lbl => (true, lbl)
      | none => (false, "")) := by
  have h2 : (cd + 57 * dayNs < now) ↔ (now - cd > 57 * dayNs) := by omega
  have h3 : (cd + 50 * dayNs < now) ↔ (now - cd > 50 * dayNs) := by omega
  simp only [isKeyOld, specClassify, h, h2, h3]
  split_ifs <;> rfl

/-- The per-key loop returns, when it succeeds, exactly the spec-side
notices of the key list, in order. -/
theorem processKeys_spec (now : Int) (u : User) (email : String) :
    ∀ keys ds, processKeys now u email keys = .ok ds →
      ds = keys.filterMap (specNoticeOfKey now u email)
  | [], ds, h => by
    cases Except.ok.inj h
    rfl
  | key :: rest, ds, h => by
    cases hcd : key.CreateDate with
    | none =>
      rw [processKeys] at h
      simp only [isKeyOld, hcd] at h
      exact Except.noConfusion h
    | some cd =>
      rw [processKeys, isKeyOld_nil_specClassify now key cd hcd] at h
      cases hsc : specClassify now cd with
      | none =>
        rw [hsc] at h
        simp only [if_neg (Bool.false_ne_true)] at h
        have ih := processKeys_spec now u email rest ds h
        rw [ih, List.filterMap_cons]
        cases hak : key.AccessKeyId <;> cases hun : u.UserName <;>
          simp [specNoticeOfKey, hcd, hsc, hak, hun]
      | some lbl =>
        rw [hsc] at h
        simp only [if_pos rfl] at h
        cases hak : key.AccessKeyId with
        | none =>
          rw [hak] at h
          exact Except.noConfusion h
        | some kid =>
          cases hun : u.UserName with
          | none =>
            rw [hak, hun] at h
            exact Except.noConfusion h
          | some uname =>
            rw [hak, hun] at h
            cases hr : processKeys now u email rest with
            | error f =>
              rw [hr] at h
              exact Except.noConfusion h
            | ok ds0 =>
              rw [hr] at h
              cases Except.ok.inj h
              have ih := processKeys_spec now u email rest ds0 hr
              rw [ih, List.filterMap_cons]
              simp [specNoticeOfKey, hcd, hsc, hak, hun]

/-- The per-user loop returns, when it succeeds, exactly the concatenation
of the spec-side per-user notice lists, in order. -/
theorem processUsers_spec (env : Env) (now : Int) :
    ∀ l ds, processUsers env now l = .ok ds →
      ds = (l.map (specNoticesForUser env now)).flatten
  | [], ds, h => by
    cases Except.ok.inj h
    rfl
  | user :: rest, ds, h => by
    rw [processUsers] at h
    cases he : getUserEmailTag env user with
    | error f =>
      rw [he] at h
      exact Except.noConfusion h
    | ok email =>
      rw [he] at h
      by_cases h0 : email = ""
      · subst h0
        simp only [if_pos rfl] at h
        have ih := processUsers_spec env now rest ds h
        rw [List.map_cons, List.flatten_cons, ih]
        cases hk : listAllAccessKeys env user <;>
          simp [specNoticesForUser, he, hk]
      · simp only [if_neg h0] at h
        cases hk : listAllAccessKeys env user with
        | error f =>
          rw [hk] at h
          exact Except.noConfusion h
        | ok keys =>
          simp only [hk] at h
          cases hp : processKeys now user email keys with
          | error f =>
            rw [hp] at h
            exact Except.noConfusion h
          | ok ds1 =>
            simp only [hp] at h
            cases hr : processUsers env now rest with
            | error f =>
              rw [hr] at h
              exact Except.noConfusion h
            | ok ds2 =>
              simp only [hr] at h
              cases Except.ok.inj h
              have ih := processUsers_spec env now rest ds2 hr
              have h1 := processKeys_spec now user email keys ds1 hp
              rw [List.map_cons, List.flatten_cons, ih, h1]
              simp [specNoticesForUser, he, hk, if_neg h0]

/-- **C9** — On a successful enumeration, the notice list is exactly the
spec-side one: one record per credential classified old, carrying the
owning principal's name, its email tag value, the credential metadata and
the threshold label, in discovery order (principals in enumeration order,
credentials in enumeration order within each principal). -/
theorem notice_list_matches_spec (env : Env) (now : Int) (ds : List defaultedUser)
    (h : getDefaultedUsers env now = .ok ds) : ds = specNotices env now := by
  unfold getDefaultedUsers at h
  unfold specNotices
  cases hu : listAllUsers env with
  | error f =>
    rw [hu] at h
    exact Except.noConfusion h
  | ok users =>
    rw [hu] at h
    exact processUsers_spec env now users ds h

/-- Witness for C9 at a concrete input: the alice environment at
now = 60 days. -/
theorem notice_list_matches_spec_witness :
    ([{ UserName := "alice", Email := "a@x.com",
        Key := { AccessKeyId := some "AKIA1", CreateDate := some 0 },
        OlderThan := "57" }] : List defaultedUser)
      = specNotices envAlice (60 * dayNs) :=
  notice_list_matches_spec envAlice (60 * dayNs) _ (by decide)

/-- The pagination loop never panics: its only error is the propagated API
error. -/
theorem listAllPages_error_apiError {α : Type} :
    ∀ (resps : List (PageResp α)) (f : Fault),
      listAllPages resps = .error f → f = .apiError
  | [], f, h => Except.noConfusion h
  | .error _ :: _, f, h => (Except.error.inj h).symm
  | .ok (items, more) :: rest, f, h => by
    rw [listAllPages] at h
    cases more with
    | false =>
      simp only [if_neg (Bool.false_ne_true)] at h
      exact Except.noConfusion h
    | true =>
      simp only [if_pos rfl] at h
      cases hr : listAllPages rest with
      | error f2 =>
        rw [hr] at h
        cases Except.error.inj h
        exact listAllPages_error_apiError rest f hr
      | ok tail =>
        rw [hr] at h
        exact Except.noConfusion h

/-- Every item aggregated by the pagination loop comes from one of the
successful pages of the response sequence. -/
theorem listAllPages_mem {α : Type} :
    ∀ (resps : List (PageResp α)) (items : List α),
      listAllPages resps = .ok items → ∀ x ∈ items,
        ∃ page more, (Except.ok (page, more) : PageResp α) ∈ resps ∧ x ∈ page
  | [], items, h, x, hx => by
    cases Except.ok.inj h
    exact absurd hx (List.not_mem_nil x)
  | .error _ :: _, items, h, x, hx => Except.noConfusion h
  | .ok (page, more) :: rest, items, h, x, hx => by
    rw [listAllPages] at h
    cases more with
    | false =>
      simp only [if_neg (Bool.false_ne_true)] at h
      cases Except.ok.inj h
      exact ⟨page, false, by simp, hx⟩
    | true =>
      simp only [if_pos rfl] at h
      cases hr : listAllPages rest with
      | error f =>
        rw [hr] at h
        exact Except.noConfusion h
      | ok tail =>
        simp only [hr] at h
        cases Except.ok.inj h
        rcases List.mem_append.mp hx with hx1 | hx2
        · exact ⟨page, true, by simp, hx1⟩
        · obtain ⟨p2, m2, hm, hp⟩ := listAllPages_mem rest tail hr x hx2
          exact ⟨p2, m2, by simp [hm], hp⟩

/-- Scanning a tag list whose keys are populated (and whose email tags have
populated values) never panics. -/
theorem scanTags_wf (tags : List Tag)
    (h : ∀ t ∈ tags, t.Key.isSome ∧ (t.Key = some "email" → t.Value.isSome)) :
    ∃ r, scanTags tags = .ok r := by
  induction tags with
  | nil => exact ⟨none, rfl⟩
  | cons t rest ih =>
    obtain ⟨hk, hv⟩ := h t (by simp)
    cases ht : t.Key with
    | none => simp [ht] at hk
    | some k =>
      by_cases hke : k = "email"
      · subst hke
        have hvs := hv ht
        cases htv : t.Value with
        | none => simp [htv] at hvs
        | some v => exact ⟨some v, by simp [scanTags, ht, htv]⟩
      · obtain ⟨r, hr⟩ := ih fun t2 ht2 => h t2 (by simp [ht2])
        exact ⟨r, by simp [scanTags, ht, hke, hr]⟩

/-- The email-tag page loop never panics on well-formed tag pages. -/
theorem getUserEmailTagGo_wf :
    ∀ resps, tagsWF resps → getUserEmailTagGo resps ≠ .error .nilPanic
  | [], _, h => Except.noConfusion h
  | .error _ :: _, _, h => by
    rw [getUserEmailTagGo] at h
    exact Fault.noConfusion (Except.error.inj h)
  | .ok (tags, more) :: rest, hwf, h => by
    rw [getUserEmailTagGo] at h
    obtain ⟨r, hr⟩ := scanTags_wf tags (hwf (.ok (tags, more)) (by simp) tags more rfl)
    rw [hr] at h
    cases r with
    | none =>
      cases more with
      | false => simp at h
      | true =>
        simp only [if_pos rfl] at h
        exact getUserEmailTagGo_wf rest (fun r2 hr2 => hwf r2 (by simp [hr2])) h
    | some v => exact Except.noConfusion h

/-- `isKeyOld` succeeds whenever the creation date is populated. -/
theorem isKeyOld_wf (now : Int) (key : AccessKeyMetadata) (ot : List Int)
    (h : key.CreateDate.isSome) : ∃ p, isKeyOld now key ot = .ok p := by
  cases hcd : key.CreateDate with
  | none => simp [hcd] at h
  | some cd =>
    cases ot with
    | nil =>
      simp only [isKeyOld, hcd]
      split_ifs <;> exact ⟨_, rfl⟩
    | cons t ts =>
      simp only [isKeyOld, hcd]
      split_ifs <;> exact ⟨_, rfl⟩

/-- The per-key loop succeeds when the user name and every key's fields are
populated. -/
theorem processKeys_wf (now : Int) (u : User) (email : String)
    (hu : u.UserName.isSome) :
    ∀ keys, (∀ k ∈ keys, k.CreateDate.isSome ∧ k.AccessKeyId.isSome) →
      ∃ ds, processKeys now u email keys = .ok ds := by
  intro keys
  induction keys with
  | nil => exact fun _ => ⟨[], rfl⟩
  | cons key rest ih =>
    intro h
    obtain ⟨hcd, hak⟩ := h key (by simp)
    obtain ⟨⟨old, lbl⟩, hko⟩ := isKeyOld_wf now key [] hcd
    obtain ⟨ds0, hds0⟩ := ih fun k hk => h k (by simp [hk])
    cases old with
    | false => exact ⟨ds0, by simp [processKeys, hko, hds0]⟩
    | true =>
      cases hak2 : key.AccessKeyId with
      | none => simp [hak2] at hak
      | some kid =>
        cases hun : u.UserName with
        | none => simp [hun] at hu
        | some uname =>
          refine ⟨{ UserName := uname, Email := email, Key := key, OlderThan := lbl } :: ds0, ?_⟩
          simp [processKeys, hko, hak2, hun, hds0]

/-- The per-user loop never panics when every listed user has a populated
name and well-formed tag and key pages. -/
theorem processUsers_wf (env : Env) (now : Int) :
    ∀ l, (∀ u ∈ l, u.UserName.isSome ∧ tagsWF (env.tagResps u) ∧ keysWF (env.keyResps u)) →
      processUsers env now l ≠ .error .nilPanic
  | [], _, h => Except.noConfusion h
  | user :: rest, hwf, h => by
    obtain ⟨hun, htags, hkeys⟩ := hwf user (by simp)
    have hrest : ∀ u ∈ rest, u.UserName.isSome ∧ tagsWF (env.tagResps u) ∧ keysWF (env.keyResps u) :=
      fun u hu => hwf u (by simp [hu])
    rw [processUsers] at h
    cases he : getUserEmailTag env user with
    | error f =>
      rw [he] at h
      cases Except.error.inj h
      exact getUserEmailTagGo_wf (env.tagResps user) htags he
    | ok email =>
      simp only [he] at h
      by_cases h0 : email = ""
      · rw [if_pos h0] at h
        exact processUsers_wf env now rest hrest h
      · rw [if_neg h0] at h
        cases hk : listAllAccessKeys env user with
        | error f =>
          rw [hk] at h
          cases Except.error.inj h
          have := listAllPages_error_apiError (env.keyResps user) _ hk
          exact Fault.noConfusion this
        | ok keys =>
          simp only [hk] at h
          have hkmem : ∀ k ∈ keys, k.CreateDate.isSome ∧ k.AccessKeyId.isSome := by
            intro k hkm
            obtain ⟨page, more, hpm, hp⟩ := listAllPages_mem (env.keyResps user) keys hk k hkm
            exact hkeys (.ok (page, more)) hpm page more rfl k hp
          obtain ⟨ds, hds⟩ := processKeys_wf now user email hun keys hkmem
          simp only [hds] at h
          cases hr : processUsers env now rest with
          | error f =>
            rw [hr] at h
            cases Except.error.inj h
            exact processUsers_wf env now rest hrest hr
          | ok ds2 =>
            rw [hr] at h
            exact Except.noConfusion h

/-- Every notice produced by the per-key loop has a populated creation date
and access-key id. -/
theorem processKeys_mem (now : Int) (u : User) (email : String) :
    ∀ keys ds, processKeys now u email keys = .ok ds →
      ∀ d ∈ ds, d.Key.CreateDate.isSome ∧ d.Key.AccessKeyId.isSome
  | [], ds, h, d, hd => by
    cases Except.ok.inj h
    exact absurd hd (List.not_mem_nil d)
  | key :: rest, ds, h, d, hd => by
    rw [processKeys] at h
    cases hko : isKeyOld now key [] with
    | error f =>
      rw [hko] at h
      exact Except.noConfusion h
    | ok p =>
      obtain ⟨old, lbl⟩ := p
      simp only [hko] at h
      cases old with
      | false =>
        simp only [if_neg (Bool.false_ne_true)] at h
        exact processKeys_mem now u email rest ds h d hd
      | true =>
        simp only [if_pos rfl] at h
        cases hak : key.AccessKeyId with
        | none =>
          rw [hak] at h
          exact Except.noConfusion h
        | some kid =>
          cases hun : u.UserName with
          | none =>
            rw [hak, hun] at h
            exact Except.noConfusion h
          | some uname =>
            rw [hak, hun] at h
            cases hr : processKeys now u email rest with
            | error f =>
              rw [hr] at h
              exact Except.noConfusion h
            | ok ds0 =>
              simp only [hr] at h
              cases Except.ok.inj h
              rcases List.mem_cons.mp hd with hd1 | hd2
              · subst hd1
                have hcd : key.CreateDate.isSome := by
                  cases hcd2 : key.CreateDate with
                  | none => rw [isKeyOld, hcd2] at hko; exact Except.noConfusion hko
                  | some cd => rfl
                exact ⟨hcd, by simp [hak]⟩
              · exact processKeys_mem now u email rest ds0 hr d hd2

/-- Every notice produced by the per-user loop has a populated creation
date and access-key id. -/
theorem processUsers_mem (env : Env) (now : Int) :
    ∀ l ds, processUsers env now l = .ok ds →
      ∀ d ∈ ds, d.Key.CreateDate.isSome ∧ d.Key.AccessKeyId.isSome
  | [], ds, h, d, hd => by
    cases Except.ok.inj h
    exact absurd hd (List.not_mem_nil d)
  | user :: rest, ds, h, d, hd => by
    rw [processUsers] at h
    cases he : getUserEmailTag env user with
    | error f =>
      rw [he] at h
      exact Except.noConfusion h
    | ok email =>
      simp only [he] at h
      by_cases h0 : email = ""
      · rw [if_pos h0] at h
        exact processUsers_mem env now rest ds h d hd
      · rw [if_neg h0] at h
        cases hk : listAllAccessKeys env user with
        | error f =>
          rw [hk] at h
          exact Except.noConfusion h
        | ok keys =>
          simp only [hk] at h
          cases hp : processKeys now user email keys with
          | error f =>
            rw [hp] at h
            exact Except.noConfusion h
          | ok ds1 =>
            simp only [hp] at h
            cases hr : processUsers env now rest with
            | error f =>
              rw [hr] at h
              exact Except.noConfusion h
            | ok ds2 =>
              simp only [hr] at h
              cases Except.ok.inj h
              rcases List.mem_append.mp hd with hd1 | hd2
              · exact processKeys_mem now user email keys ds1 hp d hd1
              · exact processUsers_mem env now rest ds2 hr d hd2

/-- The per-notice loop succeeds on notices whose key fields are
populated. -/
theorem handleNotices_wf (cfg : Config) (now : Int) (outcome : defaultedUser → Bool) :
    ∀ ns, (∀ n ∈ ns, n.Key.CreateDate.isSome ∧ n.Key.AccessKeyId.isSome) →
      ∃ acts, handleNotices cfg now outcome ns = .ok acts := by
  intro ns
  induction ns with
  | nil => exact fun _ => ⟨[], rfl⟩
  | cons u rest ih =>
    intro h
    obtain ⟨hcd, hak⟩ := h u (by simp)
    obtain ⟨acts2, hacts2⟩ := ih fun n hn => h n (by simp [hn])
    obtain ⟨⟨old, lbl⟩, hko⟩ := isKeyOld_wf now u.Key [100] hcd
    cases old with
    | false =>
      exact ⟨Action.sendEmail u.Email cfg.fromAddress u.OlderThan (outcome u) :: acts2,
        by simp [handleNotices, processNotice, hko, hacts2]⟩
    | true =>
      by_cases hd : cfg.dryRun = "--dry-run"
      · cases hak2 : u.Key.AccessKeyId with
        | none => simp [hak2] at hak
        | some kid =>
          exact ⟨Action.sendEmail u.Email cfg.fromAddress u.OlderThan (outcome u) ::
              Action.deleteKey kid u.UserName :: acts2,
            by simp [handleNotices, processNotice, hko, hd, hak2, hacts2]⟩
      · exact ⟨Action.sendEmail u.Email cfg.fromAddress u.OlderThan (outcome u) :: acts2,
          by simp [handleNotices, processNotice, hko, hd, hacts2]⟩

/-- **C10** — The workflow dereferences the API-returned pointer fields
without nil checks: under the precondition `envWF` (every record returned
by the listing calls has user name, tag key, email-tag value, access-key id
and creation date populated) the panic branch of the embedding is
unreachable on every run, while a record with a nil field reaches it — a
nil creation date makes `isKeyOld` hit the nil-dereference panic, an
unchecked precondition rather than a handled case. -/
theorem no_nil_deref_under_wf (configLoad : Except Unit Config) (env : Env)
    (now : Int) (outcome : defaultedUser → Bool) (h : envWF env) :
    HandleLabdaEvent configLoad env now outcome ≠ .error .nilPanic ∧
    isKeyOld 0 { AccessKeyId := some "AKIA", CreateDate := none } [] = .error .nilPanic := by
  refine ⟨?_, rfl⟩
  cases configLoad with
  | error e => simp [HandleLabdaEvent]
  | ok cfg =>
    simp only [HandleLabdaEvent]
    cases hg : getDefaultedUsers env now with
    | error f =>
      have hf : f = .apiError := by
        unfold getDefaultedUsers at hg
        cases hu : listAllUsers env with
        | error f2 =>
          rw [hu] at hg
          cases Except.error.inj hg
          exact listAllPages_error_apiError env.userResps f hu
        | ok users =>
          rw [hu] at hg
          cases f with
          | apiError => rfl
          | nilPanic =>
            exact absurd hg (processUsers_wf env now users fun u hu2 => h users hu u hu2)
      subst hf
      simp
    | ok ns =>
      have hmem : ∀ n ∈ ns, n.Key.CreateDate.isSome ∧ n.Key.AccessKeyId.isSome := by
        unfold getDefaultedUsers at hg
        cases hu : listAllUsers env with
        | error f =>
          rw [hu] at hg
          exact Except.noConfusion hg
        | ok users =>
          rw [hu] at hg
          exact processUsers_mem env now users ns hg
      obtain ⟨acts, ha⟩ := handleNotices_wf cfg now outcome ns hmem
      simp [ha]

/-- Witness for C10 at a concrete input: the alice environment is
well-formed, so the handler cannot panic on it. -/
theorem no_nil_deref_under_wf_witness :
    (HandleLabdaEvent (.ok { fromAddress := "f", dryRun := "" }) envAlice 0 (fun _ => true)
        ≠ .error .nilPanic) ∧
    isKeyOld 0 { AccessKeyId := some "AKIA", CreateDate := none } [] = .error .nilPanic := by
  refine no_nil_deref_under_wf (.ok { fromAddress := "f", dryRun := "" }) envAlice 0
    (fun _ => true) ?_
  intro users hu u hu2
  have husers : listAllUsers envAlice = .ok [{ UserName := some "alice" }] := by decide
  rw [husers] at hu
  cases Except.ok.inj hu
  simp only [List.mem_singleton] at hu2
  subst hu2
  refine ⟨by decide, ?_, ?_⟩
  · intro r hr
    simp only [envAlice, List.mem_singleton] at hr
    subst hr
    intro tags more heq
    cases Except.ok.inj heq
    intro t ht
    simp only [List.mem_singleton] at ht
    subst ht
    exact ⟨by decide, fun _ => by decide⟩
  · intro r hr
    simp only [envAlice, List.mem_singleton] at hr
    subst hr
    intro ks more heq
    cases Except.ok.inj heq
    intro k hk
    simp only [List.mem_singleton] at hk
    subst hk
    exact ⟨by decide, by decide⟩

end KeyAudit
